import Mathlib

/-!
Shallow embedding of the client-side vehicle-law search engine
(`SearchEngine` in the repository's JavaScript source) and verification of
the specification's claims about it.

Strings are modelled as `List Char`; JavaScript `String.prototype` helpers
(`toLowerCase`, `includes`, `indexOf`, `substring`, `match`-counting,
`trim`, `split`) are modelled by the corresponding total functions below.
`Array.prototype.sort` (a stable comparison sort) is modelled by
`List.insertionSort`, which is stable.
-/

/-- Strings of the JavaScript source are modelled as lists of characters. -/
abbrev Str := List Char

/-- Models `String.prototype.toLowerCase` (shallow, per-character). -/
def lower (s : Str) : Str := s.map Char.toLower

/-- Models the character class `\s` of JavaScript regular expressions
(shallow: ASCII whitespace). -/
def isSpace (c : Char) : Bool := c.isWhitespace

/-- Models `haystack.includes(needle)`: `needle` occurs as a contiguous
substring of `haystack`. -/
def includes (haystack needle : Str) : Bool := decide (needle <:+: haystack)

/-- Models `String.prototype.trim`. -/
def trim (s : Str) : Str := ((s.dropWhile isSpace).reverse.dropWhile isSpace).reverse

/-- Models adding one element to a JavaScript `Set` that is later converted
back to an array with `Array.from`: insertion order, first occurrence kept. -/
def addTerm (acc : List Str) (t : Str) : List Str :=
  if t ∈ acc then acc else acc ++ [t]

/-- Accumulator-based splitter behind `splitWs`. -/
def splitWsAux (acc : Str) (s : Str) : List Str :=
  match s with
  | [] => [acc.reverse]
  | c :: rest =>
    if isSpace c then acc.reverse :: splitWsAux [] (rest.dropWhile isSpace)
    else splitWsAux (c :: acc) rest
termination_by s.length
decreasing_by
  · simp only [List.length_cons]
    exact Nat.lt_succ_of_le (List.dropWhile_sublist isSpace).length_le
  · simp

/-- Models `s.split(/\s+/)` (used on already-trimmed queries in the source). -/
def splitWs (s : Str) : List Str := splitWsAux [] s

/-- Tries to match the separator regex `\s+OR\s+` (case-insensitive `OR`)
at the start of `s`; on success returns the remainder after the match
(both whitespace runs taken greedily, as the regex engine does). -/
def sepMatch (s : Str) : Option Str :=
  let ws := s.takeWhile isSpace
  if ws.length = 0 then none
  else
    match s.drop ws.length with
    | o :: r :: rest =>
      if (o == 'O' || o == 'o') && (r == 'R' || r == 'r') then
        let ws2 := rest.takeWhile isSpace
        if ws2.length = 0 then none else some (rest.drop ws2.length)
      else none
    | _ => none

/-- Accumulator-based scanner behind `splitOR`. -/
def splitORAux (cur : Str) (s : Str) : List Str :=
  match s with
  | [] => [cur.reverse]
  | c :: rest =>
    if h : (sepMatch (c :: rest)).isSome then
      cur.reverse :: splitORAux [] ((sepMatch (c :: rest)).get h)
    else splitORAux (c :: cur) rest
termination_by s.length
decreasing_by
  · generalize hres : (sepMatch (c :: rest)).get h = res
    have hmatch : sepMatch (c :: rest) = some res := by rw [← hres]; exact (Option.some_get h).symm
    generalize hs : (c :: rest : Str) = s at hmatch ⊢
    have hlength : s.length = rest.length + 1 := by rw [← hs]; simp
    unfold sepMatch at hmatch
    by_cases hws : (s.takeWhile isSpace).length = 0
    · simp [hws] at hmatch
    · simp only [hws, if_false] at hmatch
      revert hmatch
      cases hdrop : s.drop (s.takeWhile isSpace).length with
      | nil => intro hmatch; simp at hmatch
      | cons o tl =>
        cases tl with
        | nil => intro hmatch; simp at hmatch
        | cons r2 rest2 =>
          intro hmatch
          by_cases hor : ((o == 'O' || o == 'o') && (r2 == 'R' || r2 == 'r')) = true
          · simp only [hor, if_true] at hmatch
            by_cases hws2 : (rest2.takeWhile isSpace).length = 0
            · simp [hws2] at hmatch
            · simp only [hws2, if_false, Option.some.injEq] at hmatch
              have hlen : (s.drop (s.takeWhile isSpace).length).length =
                  s.length - (s.takeWhile isSpace).length := List.length_drop _ _
              rw [hdrop] at hlen
              simp only [List.length_cons] at hlen
              have hres2 : res.length ≤ rest2.length := by
                rw [← hmatch]; exact List.length_drop _ _ ▸ Nat.sub_le _ _
              have htw : (s.takeWhile isSpace).length ≤ s.length :=
                (List.takeWhile_sublist isSpace).length_le
              omega
          · simp [hor] at hmatch
  · simp

/-- Models `query.split(/\s+OR\s+/i)` from `parseSearchQuery`. -/
def splitOR (s : Str) : List Str := splitORAux [] s

/-- Models the non-overlapping, left-to-right occurrence count produced by
`text.match(new RegExp(escapeRegex(term), 'gi')).length` for a literal
(escaped) pattern; both arguments are already lowercased by the callers.
An empty pattern matches once at every position, as in JavaScript. -/
def countOcc (term text : Str) : Nat :=
  if h : term = [] then text.length + 1
  else
    match text with
    | [] => 0
    | c :: rest =>
      if decide (term <+: c :: rest) then
        1 + countOcc term ((c :: rest).drop term.length)
      else countOcc term rest
termination_by text.length
decreasing_by
  · simp only [List.length_drop, List.length_cons]
    have : 1 ≤ term.length := List.length_pos.mpr h
    omega
  · simp

/-- Models `haystack.indexOf(needle)` (`none` for `-1`). -/
def indexOfSub (needle haystack : Str) : Option Nat :=
  if decide (needle <+: haystack) then some 0
  else
    match haystack with
    | [] => none
    | _ :: t => (indexOfSub needle t).map (· + 1)

/-- Models `s.substring(a, b)` for `a ≤ b` within bounds. -/
def substringJS (s : Str) (a b : Nat) : Str := (s.take b).drop a

/-- Models `arr.join(' ')`. -/
def joinSpace (l : List Str) : Str := List.intercalate [' '] l

/-- Models `SearchEngine.expandSynonyms`: starts from the lowercased query,
then for every dictionary entry `(key, synonyms)` adds the lowercased key
and all lowercased synonyms whenever the lowercased key occurs in the
query, or some lowercased synonym occurs in the query. -/
def expandSynonyms (syns : List (Str × List Str)) (query : Str) : List Str :=
  syns.foldl
    (fun acc entry =>
      let keyLower := lower entry.1
      let synonymsLower := entry.2.map lower
      let acc1 :=
        if includes (lower query) keyLower then
          synonymsLower.foldl addTerm (addTerm acc keyLower)
        else acc
      if synonymsLower.any (fun s => includes (lower query) s) then
        synonymsLower.foldl addTerm (addTerm acc1 keyLower)
      else acc1)
    [lower query]

/-- Models the parsed-query object returned by `parseSearchQuery`. -/
inductive ParsedQuery where
  | or (groups : List (List Str)) (originalTerms : List Str)
  | and (terms : List Str) (originalTerms : List Str)
deriving DecidableEq

/-- Models `SearchEngine.parseSearchQuery`: splits on `\s+OR\s+` first; two
or more groups give OR mode (each trimmed group expanded as a whole),
otherwise AND mode (whitespace tokens expanded independently, expansions
unioned with duplicates removed). -/
def parseSearchQuery (syns : List (Str × List Str)) (query : Str) : ParsedQuery :=
  let orGroups := splitOR query
  if 1 < orGroups.length then
    ParsedQuery.or (orGroups.map (fun g => expandSynonyms syns (trim g))) (orGroups.map trim)
  else
    let andTerms := splitWs (trim query)
    ParsedQuery.and ((andTerms.flatMap (expandSynonyms syns)).foldl addTerm []) andTerms

/-- The comparison order established by the comparator
`(a, b) => b.length - a.length` in `highlightText`. -/
def lenDescRel (a b : Str) : Prop := b.length ≤ a.length

instance : DecidableRel lenDescRel := fun a b => Nat.decLe b.length a.length

instance : IsTotal Str lenDescRel := ⟨fun a b => Nat.le_total b.length a.length⟩

instance : IsTrans Str lenDescRel := ⟨fun _ _ _ h1 h2 => Nat.le_trans h2 h1⟩

/-- Models `terms.sort((a, b) => b.length - a.length)`: a stable sort into
non-increasing length order. -/
def sortLenDesc (terms : List Str) : List Str := List.insertionSort lenDescRel terms

/-- The markup opened around each match by `highlightText`. -/
def openTag : Str := "<span class=\"highlight\">".toList

/-- The markup closed around each match by `highlightText`. -/
def closeTag : Str := "</span>".toList

/-- Case-insensitive prefix test used to locate matches of the escaped,
case-insensitive (`'gi'`) highlight regex. -/
def startsWithCI (term s : Str) : Bool := decide (lower term <+: lower s)

/-- Models one `result.replace(regex, '<span class="highlight">$1</span>')`
call for the literal (regex-escaped) pattern `term`: every non-overlapping,
left-to-right, case-insensitive occurrence is wrapped in the markup, with the
matched text itself (`$1`) kept verbatim.  Only called with `term.length ≥ 2`
by `highlightText`; an empty pattern is returned unchanged for totality. -/
def replaceWrap (term text : Str) : Str :=
  if h : term = [] then text
  else
    match text with
    | [] => []
    | c :: rest =>
      if startsWithCI term (c :: rest) then
        openTag ++ (c :: rest).take term.length ++ closeTag ++
          replaceWrap term ((c :: rest).drop term.length)
      else c :: replaceWrap term rest
termination_by text.length
decreasing_by
  · simp only [List.length_drop, List.length_cons]
    have : 1 ≤ term.length := List.length_pos.mpr h
    omega
  · simp

/-- Models `SearchEngine.highlightText`: returns the text unchanged when the
text is empty (falsy) or no terms are given; otherwise sorts the terms
longest-first and iteratively wraps matches, skipping terms shorter than
two characters. -/
def highlightText (text : Str) (terms : List Str) : Str :=
  if text = [] ∨ terms = [] then text
  else
    (sortLenDesc terms).foldl
      (fun result term => if term.length < 2 then result else replaceWrap term result)
      text

/-- Models the state of the caller's `terms` array after a call to
`highlightText`: `Array.prototype.sort` sorts the array in place, so past
the early-return guard the caller's array is reordered longest-first. -/
def highlightTermsAfter (text : Str) (terms : List Str) : List Str :=
  if text = [] ∨ terms = [] then terms else sortLenDesc terms

/-- Models a paragraph record of the laws document. -/
structure Paragraph where
  paragraphNumber : Str
  content : Str
deriving DecidableEq

/-- Models an article record of the laws document. -/
structure Article where
  articleNumber : Str
  title : Str
  content : Str
  paragraphs : List Paragraph
deriving DecidableEq

/-- Models a law record of the laws document. -/
structure Law where
  lawId : Str
  lawName : Str
  lawType : Str
  articles : List Article
deriving DecidableEq

/-- Models a PDF text record of the PDF content document; `keywords` and
`fullTextLength` are optional fields. -/
structure PdfDoc where
  id : Str
  title : Str
  content : Str
  keywords : Option (List Str)
  fullTextLength : Option Nat
deriving DecidableEq

/-- Models an `{id, url}` entry of the PDF metadata document. -/
structure MetaEntry where
  id : Str
  url : Option Str
deriving DecidableEq

/-- Models the PDF metadata document. -/
structure PdfMetadata where
  details : List MetaEntry
  appendices : List MetaEntry
deriving DecidableEq

/-- Models the normalized `pdfContent` field of the engine. -/
structure PdfContent where
  standards : List PdfDoc
  details : List PdfDoc
  appendices : List PdfDoc
  other : List PdfDoc
deriving DecidableEq

/-- Models the raw parsed PDF content document, whose four top-level keys
may each be absent. -/
structure PdfContentRaw where
  standards : Option (List PdfDoc)
  details : Option (List PdfDoc)
  appendices : Option (List PdfDoc)
  other : Option (List PdfDoc)
deriving DecidableEq

/-- Models the mutable state of the global `SearchEngine` instance. -/
structure SearchEngine where
  laws : List Law
  synonyms : List (Str × List Str)
  pdfMetadata : PdfMetadata
  pdfContent : PdfContent
  isReady : Bool
deriving DecidableEq

/-- Models the engine state produced by `new SearchEngine()`. -/
def initEngine : SearchEngine :=
  { laws := []
    synonyms := []
    pdfMetadata := { details := [], appendices := [] }
    pdfContent := { standards := [], details := [], appendices := [], other := [] }
    isReady := false }

/-- Models `SearchEngine.loadData` as a function of the engine state and of
the four parse outcomes, in the order the source consumes them (`none`
models a rejected fetch or a JSON parse/projection failure; a rejected
fetch in the initial `Promise.all` behaves as a failure of the first
parse, since no assignment has happened yet).  Each successful parse is
committed to the state immediately, as the source's sequential `await`
assignments do; the first failure jumps to the `catch` block, which
returns `false` without touching `isReady`. -/
def loadData (e : SearchEngine) (lawsR : Option (List Law))
    (synonymsR : Option (List (Str × List Str))) (pdfMetadataR : Option PdfMetadata)
    (pdfContentR : Option PdfContentRaw) : SearchEngine × Bool :=
  match lawsR with
  | none => (e, false)
  | some laws =>
    let e1 := { e with laws := laws }
    match synonymsR with
    | none => (e1, false)
    | some syns =>
      let e2 := { e1 with synonyms := syns }
      match pdfMetadataR with
      | none => (e2, false)
      | some meta =>
        let e3 := { e2 with pdfMetadata := meta }
        match pdfContentR with
        | none => (e3, false)
        | some pdfData =>
          ({ e3 with
              pdfContent :=
                { standards := pdfData.standards.getD []
                  details := pdfData.details.getD []
                  appendices := pdfData.appendices.getD []
                  other := pdfData.other.getD [] }
              isReady := true }, true)

/-- The lowercased `title + ' ' + content` search text of an article. -/
def articleSearchText (a : Article) : Str := lower (a.title ++ [' '] ++ a.content)

/-- The body of the per-term scoring loop of `SearchEngine.calculateScore`:
15 points per occurrence, an 80-point title bonus, and a 60-point
article-number bonus guarded by the truthiness (non-emptiness) of
`article.articleNumber`. -/
def calculateScoreStep (article : Article) (score : Int) (term : Str) : Int :=
  let termLower := lower term
  let matchCount := countOcc termLower (articleSearchText article)
  let s1 := score + (matchCount : Int) * 15
  let s2 := if includes (lower article.title) termLower then s1 + 80 else s1
  if article.articleNumber ≠ [] ∧ includes (lower article.articleNumber) termLower then
    s2 + 60
  else s2

/-- Models `SearchEngine.calculateScore` (the `js/` version of the source,
with the 150/15/80/60 weights): a verbatim-query bonus plus the per-term
loop `calculateScoreStep`. -/
def calculateScore (article : Article) (query : Str) (terms : List Str) : Int :=
  let content := articleSearchText article
  let queryLower := lower query
  let base : Int := if includes content queryLower then 150 else 0
  terms.foldl (calculateScoreStep article) base

/-- Models `SearchEngine.getPDFUrl`: the id is looked up in the detail
metadata first, then in the appendix metadata; an entry only counts when
its `url` field is truthy (present and non-empty). -/
def getPDFUrl (meta : PdfMetadata) (pdfId : Str) : Option Str :=
  let fromList := fun (l : List MetaEntry) =>
    match l.find? (fun item => item.id == pdfId) with
    | some m =>
      match m.url with
      | some u => if u = [] then none else some u
      | none => none
    | none => none
  match fromList meta.details with
  | some u => some u
  | none => fromList meta.appendices

/-- Decimal digit test for the pattern `\d`. -/
def isDigit (c : Char) : Bool := '0' ≤ c && c ≤ '9'

/-- Numeric value of a non-empty decimal digit string, as
`parseInt(s, 10)` computes it. -/
def digitsToNat (s : Str) : Nat :=
  s.foldl (fun n c => n * 10 + (c.toNat - '0'.toNat)) 0

/-- Models `pdfId.match(/^([A-Z])(\d+)(-\d+)?$/)`: returns the prefix
letter, the parsed number and the raw suffix (including its dash, or
empty), or `none` when the id does not match the pattern. -/
def parsePdfId (s : Str) : Option (Char × Nat × Str) :=
  match s with
  | [] => none
  | c :: rest =>
    if 'A' ≤ c && c ≤ 'Z' then
      let digits := rest.takeWhile isDigit
      if digits = [] then none
      else
        match rest.drop digits.length with
        | [] => some (c, digitsToNat digits, [])
        | '-' :: ds =>
          if ds ≠ [] ∧ ds.all isDigit then some (c, digitsToNat digits, '-' :: ds)
          else none
        | _ => none
    else none

/-- Models `SearchEngine.formatPDFDisplayName`: ids shaped
letter-digits-optional-suffix are mapped through the prefix table
(`S`, `B`, `H`); everything else is returned unchanged. -/
def formatPDFDisplayName (pdfId : Str) : Str :=
  match parsePdfId pdfId with
  | none => pdfId
  | some (pfx, number, suffix) =>
    if pfx = 'S' then "細目告示 第".toList ++ (Nat.repr number).toList ++ "条".toList ++ suffix
    else if pfx = 'B' then "別添".toList ++ (Nat.repr number).toList ++ suffix
    else if pfx = 'H' then
      "保安基準 第".toList ++ (Nat.repr number).toList ++ "条".toList ++ suffix
    else pdfId

/-- One OR group satisfies a record when some of its terms occurs in the
record's search text (`group.some(term => text.includes(term.toLowerCase()))`). -/
def groupSat (content : Str) (group : List Str) : Bool :=
  group.any (fun term => includes content (lower term))

/-- Models the OR-mode matching loop shared by `search` and `searchPDFs`:
groups are scanned in order, the first group with some occurring term
matches, its terms become the matched-term set, and scanning stops. -/
def orMatch (content : Str) (groups : List (List Str)) : Option (List Str) :=
  match groups with
  | [] => none
  | g :: gs => if groupSat content g then some g else orMatch content gs

/-- Models the AND-mode matching test shared by `search` and `searchPDFs`:
every original token must have some synonym expansion occurring in the
record's search text; the expansion is recomputed from the dictionary for
each token at each candidate record. -/
def andMatch (syns : List (Str × List Str)) (content : Str)
    (originalTerms : List Str) : Bool :=
  originalTerms.all
    (fun originalTerm =>
      (expandSynonyms syns originalTerm).any (fun syn => includes content (lower syn)))

/-- Models the matching block duplicated in `search` and `searchPDFs`:
returns the matched-term set when the record matches, `none` otherwise. -/
def matchTerms (syns : List (Str × List Str)) (pq : ParsedQuery)
    (content : Str) : Option (List Str) :=
  match pq with
  | ParsedQuery.or groups _ => orMatch content groups
  | ParsedQuery.and terms originalTerms =>
    if andMatch syns content originalTerms then some terms else none

/-- The lowercased `title + ' ' + content + ' ' + keywords.join(' ')`
search text of a PDF record. -/
def pdfSearchText (pdf : PdfDoc) : Str :=
  lower (pdf.title ++ [' '] ++ pdf.content ++ [' '] ++ joinSpace (pdf.keywords.getD []))

/-- The body of the per-term scoring loop of `searchPDFs`: for a matched
term present in the search text, 10 points per occurrence, a 50-point
title bonus, and a 30-point keyword bonus (the keyword check first
requires the keywords field to be truthy, i.e. present). -/
def pdfScoreStep (pdf : PdfDoc) (score : Int) (term : Str) : Int :=
  let termLower := lower term
  if includes (pdfSearchText pdf) termLower then
    let termMatches := countOcc termLower (pdfSearchText pdf)
    let s1 := score + (termMatches : Int) * 10
    let s2 := if includes (lower pdf.title) termLower then s1 + 50 else s1
    match pdf.keywords with
    | some kws =>
      if kws.any (fun kw => includes (lower kw) termLower) then s2 + 30 else s2
    | none => s2
  else score

/-- Models the PDF scoring loop of `searchPDFs`. -/
def pdfScore (pdf : PdfDoc) (matchedTerms : List Str) : Int :=
  matchedTerms.foldl (pdfScoreStep pdf) 0

/-- The scan over the matched-term list in the preview construction of
`searchPDFs`; `dflt` is the default 200-character preview. -/
def pdfPreviewLoop (content : Str) (ts : List Str) (dflt : Str) : Str :=
  match ts with
  | [] => dflt
  | t :: rest =>
    match indexOfSub (lower t) (lower content) with
    | some i =>
      if i < 500 then
        "...".toList ++ substringJS content (i - 50) (min content.length (i + 150)) ++
          "...".toList
      else pdfPreviewLoop content rest dflt
    | none => pdfPreviewLoop content rest dflt

/-- Models the preview construction of `searchPDFs`: the first 200
characters of content by default, or a window around the first matched
term found within the first 500 characters, wrapped in ellipses. -/
def pdfPreview (content : Str) (matchedTerms : List Str) : Str :=
  pdfPreviewLoop content matchedTerms (content.take 200)

/-- Models a scored article result pushed by `search`. -/
structure ArticleResult where
  lawId : Str
  lawName : Str
  lawType : Str
  articleNumber : Str
  title : Str
  content : Str
  paragraphs : List Paragraph
  score : Int
  highlightedTitle : Str
  highlightedContent : Str
deriving DecidableEq

/-- Models a scored PDF result pushed by `searchPDFs`. -/
structure PdfResult where
  type : Str
  typeLabel : Str
  id : Str
  displayName : Str
  title : Str
  content : Str
  fullContent : Str
  keywords : List Str
  fullTextLength : Nat
  score : Int
  highlightedTitle : Str
  highlightedContent : Str
  url : Option Str
deriving DecidableEq

/-- Models the `{articles, pdfs}` object returned by `search`. -/
structure SearchResults where
  articles : List ArticleResult
  pdfs : List PdfResult
deriving DecidableEq

/-- Models the caller-supplied filter switches of `search`. -/
structure Filters where
  law : Bool
  ordinance : Bool
  details : Bool
  appendices : Bool
deriving DecidableEq

/-- The score-descending order established by the comparator
`(a, b) => b.score - a.score` on article results. -/
def scoreRelA (a b : ArticleResult) : Prop := b.score ≤ a.score

instance : DecidableRel scoreRelA := fun a b => Int.decLe b.score a.score

instance : IsTotal ArticleResult scoreRelA := ⟨fun a b => Int.le_total b.score a.score⟩

instance : IsTrans ArticleResult scoreRelA := ⟨fun _ _ _ h1 h2 => Int.le_trans h2 h1⟩

/-- The score-descending order established by the comparator
`(a, b) => b.score - a.score` on PDF results. -/
def scoreRelP (a b : PdfResult) : Prop := b.score ≤ a.score

instance : DecidableRel scoreRelP := fun a b => Int.decLe b.score a.score

instance : IsTotal PdfResult scoreRelP := ⟨fun a b => Int.le_total b.score a.score⟩

instance : IsTrans PdfResult scoreRelP := ⟨fun _ _ _ h1 h2 => Int.le_trans h2 h1⟩

/-- Builds the result object pushed by `searchPDFs` for a matched PDF
record (`fullTextLength` falls back to the content length when the
declared length is absent or zero, i.e. falsy). -/
def mkPdfResult (meta : PdfMetadata) (catType catLabel : Str) (pdf : PdfDoc)
    (matchedTerms : List Str) : PdfResult :=
  { type := catType
    typeLabel := catLabel
    id := pdf.id
    displayName := formatPDFDisplayName pdf.id
    title := pdf.title
    content := pdfPreview pdf.content matchedTerms
    fullContent := pdf.content
    keywords := pdf.keywords.getD []
    fullTextLength :=
      match pdf.fullTextLength with
      | some n => if n = 0 then pdf.content.length else n
      | none => pdf.content.length
    score := pdfScore pdf matchedTerms
    highlightedTitle := highlightText pdf.title matchedTerms
    highlightedContent := highlightText (pdfPreview pdf.content matchedTerms) matchedTerms
    url := getPDFUrl meta pdf.id }

/-- The scan of one PDF category inside `searchPDFs`. -/
def searchPDFCategory (e : SearchEngine) (pq : ParsedQuery) (catData : List PdfDoc)
    (catType catLabel : Str) : List PdfResult :=
  catData.filterMap
    (fun pdf => (matchTerms e.synonyms pq (pdfSearchText pdf)).map
      (mkPdfResult e.pdfMetadata catType catLabel pdf))

/-- Models `SearchEngine.searchPDFs`: scans the four categories in order,
collects matched records, and sorts the results by descending score. -/
def searchPDFs (e : SearchEngine) (pq : ParsedQuery) : List PdfResult :=
  List.insertionSort scoreRelP
    (searchPDFCategory e pq e.pdfContent.standards "standard".toList "保安基準".toList ++
      searchPDFCategory e pq e.pdfContent.details "detail".toList "細目告示".toList ++
      searchPDFCategory e pq e.pdfContent.appendices "appendix".toList "別添".toList ++
      searchPDFCategory e pq e.pdfContent.other "other".toList "その他".toList)

/-- The text handed to the second `highlightText` call for an article
result: the first 300 characters of content, with an ellipsis appended
when the content is longer. -/
def articleResultText (article : Article) : Str :=
  article.content.take 300 ++ (if 300 < article.content.length then "...".toList else [])

/-- Builds the result object pushed by `search` for a matched article. -/
def mkArticleResult (law : Law) (article : Article) (query : Str)
    (matchedTerms : List Str) : ArticleResult :=
  { lawId := law.lawId
    lawName := law.lawName
    lawType := law.lawType
    articleNumber := article.articleNumber
    title := article.title
    content := article.content
    paragraphs := article.paragraphs
    score := calculateScore article query matchedTerms
    highlightedTitle := highlightText article.title matchedTerms
    highlightedContent := highlightText (articleResultText article) matchedTerms }

/-- The scan of one law inside `search`, including the two filter guards. -/
def processLaw (syns : List (Str × List Str)) (filters : Filters) (query : Str)
    (pq : ParsedQuery) (law : Law) : List ArticleResult :=
  if law.lawType = "法律".toList ∧ filters.law = false then []
  else if law.lawType = "省令".toList ∧ filters.ordinance = false then []
  else
    law.articles.filterMap
      (fun article => (matchTerms syns pq (articleSearchText article)).map
        (mkArticleResult law article query))

/-- Models `SearchEngine.search`: returns empty result sets when the engine
is not ready or the query is empty; otherwise parses the trimmed query,
scans all laws (subject to the filters) and all PDF categories, and
returns both lists sorted by descending score. -/
def search (e : SearchEngine) (query : Str) (filters : Filters) : SearchResults :=
  if e.isReady = false ∨ trim query = [] then { articles := [], pdfs := [] }
  else
    let pq := parseSearchQuery e.synonyms (trim query)
    { articles :=
        List.insertionSort scoreRelA
          (e.laws.flatMap (processLaw e.synonyms filters query pq))
      pdfs := searchPDFs e pq }

/-- The state of the shared AND-mode `parsedQuery.terms` array after the
two in-place-sorting `highlightText` calls made for one matched article. -/
def articleTermsEffect (article : Article) (terms : List Str) : List Str :=
  highlightTermsAfter (articleResultText article) (highlightTermsAfter article.title terms)

/-- Explicit state passing for the article loop of `search` in AND mode:
threads the shared `parsedQuery.terms` array through the in-place sorts
performed while highlighting each matched article. -/
def andArticleLoopTerms (syns : List (Str × List Str)) (originalTerms : List Str)
    (articles : List Article) (terms : List Str) : List Str :=
  articles.foldl
    (fun acc article =>
      if andMatch syns (articleSearchText article) originalTerms then
        articleTermsEffect article acc
      else acc)
    terms

/-- The condition under which the entry-processing step of
`expandSynonyms` adds an entry's key and synonyms, read off the source:
the lowercased key occurs in the query, or some lowercased synonym occurs
in the query. -/
def entryCond (query : Str) (entry : Str × List Str) : Prop :=
  includes (lower query) (lower entry.1) = true ∨
    (entry.2.map lower).any (fun s => includes (lower query) s) = true

instance : DecidablePred (entryCond query) := fun entry => by
  unfold entryCond; infer_instance

/-- Membership in the term set contributed by one dictionary entry. -/
def inEntry (x : Str) (entry : Str × List Str) : Prop :=
  x = lower entry.1 ∨ x ∈ entry.2.map lower

/-- The condition claim C4 states for when a dictionary entry's key and
synonyms are added by `expandSynonyms`, written from the claim's words
(for comparison with the source-derived `entryCond`): the lowercased key
is a substring of the input, or the input is a substring of some
lowercased synonym of the entry. -/
def entryCondClaimed (query : Str) (entry : Str × List Str) : Prop :=
  includes (lower query) (lower entry.1) = true ∨
    ∃ s ∈ entry.2.map lower, lower query <:+: s

instance : DecidablePred (entryCondClaimed query) := fun entry => by
  unfold entryCondClaimed; infer_instance

/-- The per-term score contribution exactly as claim C3 states it: 15 per
case-insensitive occurrence, 80 for a title substring hit, 60 for a
display-number substring hit (with no non-emptiness guard on the number).
Written from the claim's words, for comparison with `calculateScore`. -/
def claimedTermScoreStated (article : Article) (term : Str) : Int :=
  (countOcc (lower term) (articleSearchText article) : Int) * 15 +
    (if includes (lower article.title) (lower term) then 80 else 0) +
    (if includes (lower article.articleNumber) (lower term) then 60 else 0)

/-- The article score exactly as claim C3 states it. -/
def claimedScoreStated (article : Article) (query : Str) (terms : List Str) : Int :=
  (if includes (articleSearchText article) (lower query) then 150 else 0) +
    (terms.map (claimedTermScoreStated article)).sum

/-- The per-term score contribution of the amended claim C3: as stated,
but the 60-point display-number bonus additionally requires the article
number to be truthy (non-empty), as the source's
`article.articleNumber && ...` guard does. -/
def claimedTermScore (article : Article) (term : Str) : Int :=
  (countOcc (lower term) (articleSearchText article) : Int) * 15 +
    (if includes (lower article.title) (lower term) then 80 else 0) +
    (if article.articleNumber ≠ [] ∧ includes (lower article.articleNumber) (lower term) then
      60 else 0)

/-- The article score of the amended claim C3. -/
def claimedScore (article : Article) (query : Str) (terms : List Str) : Int :=
  (if includes (articleSearchText article) (lower query) then 150 else 0) +
    (terms.map (claimedTermScore article)).sum

/-- Boolean test for whether a term qualifies to recenter the PDF
preview: its first occurrence in the content exists and lies before
index 500. -/
def previewQualB (content t : Str) : Bool :=
  match indexOfSub (lower t) (lower content) with
  | some i => decide (i < 500)
  | none => false

/-- The pool of query-derived terms of a parsed query: all groups' terms
in OR mode, the deduplicated expanded term set in AND mode. -/
def termsOf : ParsedQuery → List Str
  | ParsedQuery.or groups _ => groups.flatten
  | ParsedQuery.and terms _ => terms

/-- Characters of the instrumented highlighter: the flag records whether
the character was inserted as markup (`true`) or belongs to the original
text (`false`). -/
def mfst (s : List (Char × Bool)) : Str := s.map Prod.fst

/-- Strips the inserted markup from an instrumented string: keeps exactly
the characters of the original text. -/
def mstrip (s : List (Char × Bool)) : Str := (s.filter (fun p => !p.2)).map Prod.fst

/-- Tags every character of a string with the given inserted-flag. -/
def mark (s : Str) (b : Bool) : List (Char × Bool) := s.map (fun c => (c, b))

/-- The instrumented counterpart of `replaceWrap`: performs the same
replacement, tagging the inserted markup characters with `true` and
keeping the matched span's existing tags (`$1` keeps the matched text
verbatim). -/
def replaceWrapM (term : Str) (s : List (Char × Bool)) : List (Char × Bool) :=
  if h : term = [] then s
  else
    match s with
    | [] => []
    | c :: rest =>
      if startsWithCI term (mfst (c :: rest)) then
        mark openTag true ++ (c :: rest).take term.length ++ mark closeTag true ++
          replaceWrapM term ((c :: rest).drop term.length)
      else c :: replaceWrapM term rest
termination_by s.length
decreasing_by
  · simp only [List.length_drop, List.length_cons]
    have : 1 ≤ term.length := List.length_pos.mpr h
    omega
  · simp

/-- The instrumented counterpart of `highlightText`: the same
computation on origin-tagged characters, starting from the input text
tagged as original. -/
def highlightTextM (text : Str) (terms : List Str) : List (Char × Bool) :=
  if text = [] ∨ terms = [] then mark text false
  else
    (sortLenDesc terms).foldl
      (fun result term => if term.length < 2 then result else replaceWrapM term result)
      (mark text false)

theorem includes_iff {h n : Str} : includes h n = true ↔ n <:+: h := by
  simp [includes]

theorem mem_addTerm {x t : Str} {acc : List Str} :
    x ∈ addTerm acc t ↔ x ∈ acc ∨ x = t := by
  unfold addTerm
  by_cases hmem : t ∈ acc
  · simp only [hmem, if_true]
    constructor
    · exact Or.inl
    · rintro (hx | rfl)
      · exact hx
      · exact hmem
  · simp [hmem]

theorem mem_foldl_addTerm {x : Str} {l : List Str} {acc : List Str} :
    x ∈ l.foldl addTerm acc ↔ x ∈ acc ∨ x ∈ l := by
  induction l generalizing acc with
  | nil => simp
  | cons hd tl ih =>
    simp only [List.foldl_cons, ih, mem_addTerm, List.mem_cons]
    tauto

theorem mem_expandSynonyms_step {x : Str} {query : Str} {entry : Str × List Str}
    {acc : List Str} :
    x ∈ (fun acc entry =>
      let keyLower := lower entry.1
      let synonymsLower := entry.2.map lower
      let acc1 :=
        if includes (lower query) keyLower then
          synonymsLower.foldl addTerm (addTerm acc keyLower)
        else acc
      if synonymsLower.any (fun s => includes (lower query) s) then
        synonymsLower.foldl addTerm (addTerm acc1 keyLower)
      else acc1) acc entry ↔
    x ∈ acc ∨ (entryCond query entry ∧ inEntry x entry) := by
  simp only [entryCond, inEntry]
  by_cases h1 : includes (lower query) (lower entry.1) = true
  · by_cases h2 : (entry.2.map lower).any (fun s => includes (lower query) s) = true
    · simp only [h1, h2, if_true, mem_foldl_addTerm, mem_addTerm]
      tauto
    · simp [h1, h2, mem_foldl_addTerm, mem_addTerm]
      tauto
  · by_cases h2 : (entry.2.map lower).any (fun s => includes (lower query) s) = true
    · simp [h1, h2, mem_foldl_addTerm, mem_addTerm]
      tauto
    · simp [h1, h2]

theorem mem_expandSynonyms {x : Str} {syns : List (Str × List Str)} {query : Str} :
    x ∈ expandSynonyms syns query ↔
      x = lower query ∨ ∃ entry ∈ syns, entryCond query entry ∧ inEntry x entry := by
  unfold expandSynonyms
  suffices hgen : ∀ (l : List (Str × List Str)) (acc : List Str),
      x ∈ l.foldl (fun acc entry =>
        let keyLower := lower entry.1
        let synonymsLower := entry.2.map lower
        let acc1 :=
          if includes (lower query) keyLower then
            synonymsLower.foldl addTerm (addTerm acc keyLower)
          else acc
        if synonymsLower.any (fun s => includes (lower query) s) then
          synonymsLower.foldl addTerm (addTerm acc1 keyLower)
        else acc1) acc ↔
      x ∈ acc ∨ ∃ entry ∈ l, entryCond query entry ∧ inEntry x entry by
    rw [hgen]
    simp
  intro l
  induction l with
  | nil => simp
  | cons hd tl ih =>
    intro acc
    simp only [List.foldl_cons, ih, mem_expandSynonyms_step, List.mem_cons]
    constructor
    · rintro ((hx | hhd) | ⟨e, he, hc⟩)
      · exact Or.inl hx
      · exact Or.inr ⟨hd, Or.inl rfl, hhd⟩
      · exact Or.inr ⟨e, Or.inr he, hc⟩
    · rintro (hx | ⟨e, (rfl | he), hc⟩)
      · exact Or.inl (Or.inl hx)
      · exact Or.inl (Or.inr hc)
      · exact Or.inr ⟨e, he, hc⟩

theorem lower_mem_expandSynonyms {syns : List (Str × List Str)} {query : Str} :
    lower query ∈ expandSynonyms syns query :=
  mem_expandSynonyms.mpr (Or.inl rfl)

theorem countOcc_pos {term text : Str} (h : term <:+: text) : 1 ≤ countOcc term text := by
  by_cases hterm : term = []
  · unfold countOcc
    simp [hterm]
  · induction text with
    | nil =>
      have : term = [] := by simpa using h
      exact absurd this hterm
    | cons c rest ih =>
      unfold countOcc
      simp only [hterm, dite_false]
      by_cases hpre : term <+: c :: rest
      · simp [hpre]
      · have hrest : term <:+: rest := by
          rcases ( List.infix_cons_iff.mp h) with hp | hi
          · exact absurd hp hpre
          · exact hi
        simp only [hpre, decide_eq_true_eq, if_neg hpre]
        exact ih hrest

theorem groupSat_iff {content : Str} {group : List Str} :
    groupSat content group = true ↔ ∃ t ∈ group, includes content (lower t) = true := by
  simp [groupSat]

theorem orMatch_eq_some {content : Str} {groups : List (List Str)} {g : List Str}
    (h : orMatch content groups = some g) :
    ∃ pre post, groups = pre ++ g :: post ∧
      (∀ g2 ∈ pre, groupSat content g2 = false) ∧ groupSat content g = true := by
  induction groups with
  | nil => simp [orMatch] at h
  | cons hd tl ih =>
    unfold orMatch at h
    by_cases hs : groupSat content hd = true
    · rw [if_pos hs] at h
      injection h with h
      subst h
      exact ⟨[], tl, rfl, by simp, hs⟩
    · rw [if_neg hs] at h
      obtain ⟨pre, post, heq, hpre, hg⟩ := ih h
      refine ⟨hd :: pre, post, by simp [heq], ?_, hg⟩
      intro g2 hg2
      rcases List.mem_cons.mp hg2 with rfl | hmem
      · simpa using hs
      · exact hpre g2 hmem

theorem orMatch_isSome_iff {content : Str} {groups : List (List Str)} :
    (orMatch content groups).isSome = true ↔
      ∃ g ∈ groups, ∃ t ∈ g, includes content (lower t) = true := by
  induction groups with
  | nil => simp [orMatch]
  | cons hd tl ih =>
    unfold orMatch
    by_cases hs : groupSat content hd = true
    · rw [if_pos hs]
      simp only [Option.isSome_some, true_iff]
      exact ⟨hd, List.mem_cons_self _ _, groupSat_iff.mp hs⟩
    · rw [if_neg hs]
      rw [ih]
      constructor
      · rintro ⟨g, hg, ht⟩
        exact ⟨g, List.mem_cons_of_mem _ hg, ht⟩
      · rintro ⟨g, hg, ht⟩
        rcases List.mem_cons.mp hg with rfl | hmem
        · exact absurd (groupSat_iff.mpr ht) hs
        · exact ⟨g, hmem, ht⟩

theorem andMatch_iff {syns : List (Str × List Str)} {content : Str}
    {originalTerms : List Str} :
    andMatch syns content originalTerms = true ↔
      ∀ t ∈ originalTerms, ∃ syn ∈ expandSynonyms syns t,
        includes content (lower syn) = true := by
  simp [andMatch]

theorem parse_and_inv {syns : List (Str × List Str)} {q : Str} {terms ots : List Str}
    (h : parseSearchQuery syns q = ParsedQuery.and terms ots) :
    terms = ((splitWs (trim q)).flatMap (expandSynonyms syns)).foldl addTerm [] ∧
      ots = splitWs (trim q) := by
  unfold parseSearchQuery at h
  by_cases hlen : 1 < (splitOR q).length
  · rw [if_pos hlen] at h
    exact absurd h (by simp)
  · rw [if_neg hlen] at h
    injection h with h1 h2
    exact ⟨h1.symm, h2.symm⟩

theorem splitWsAux_ne_nil : ∀ (s : Str) (acc : Str), splitWsAux acc s ≠ [] := by
  intro s
  induction s with
  | nil => intro acc; rw [splitWsAux]; simp
  | cons c rest ih =>
    intro acc
    rw [splitWsAux]
    by_cases hc : isSpace c = true
    · simp [hc]
    · simp only [hc, if_false]
      exact ih (c :: acc)

theorem splitWs_ne_nil (s : Str) : splitWs s ≠ [] := splitWsAux_ne_nil s []

theorem parse_ab_eval : parseSearchQuery [] ['a', ' ', 'b'] =
    ParsedQuery.and [['a'], ['b']] [['a'], ['b']] := by
  have hsplit : splitOR ['a', ' ', 'b'] = [['a', ' ', 'b']] := by
    simp [splitOR]
    repeat
      (rw [splitORAux]
       simp [sepMatch, isSpace, Char.isWhitespace, List.takeWhile_cons, List.dropWhile_cons])
  have ht : trim ['a', ' ', 'b'] = ['a', ' ', 'b'] := by decide
  have hws : splitWs ['a', ' ', 'b'] = [['a'], ['b']] := by
    simp [splitWs]
    repeat
      (rw [splitWsAux]
       simp [isSpace, Char.isWhitespace, List.dropWhile_cons])
  simp [parseSearchQuery, hsplit, ht, hws]
  decide

theorem parse_aorb_eval :
    parseSearchQuery [(['b'], [['z', 'z']])] ['a', ' ', 'O', 'R', ' ', 'b'] =
      ParsedQuery.or [[['a']], [['b'], ['z', 'z']]] [['a'], ['b']] := by
  have hsplit : splitOR ['a', ' ', 'O', 'R', ' ', 'b'] = [['a'], ['b']] := by
    simp [splitOR]
    repeat
      (rw [splitORAux]
       simp [sepMatch, isSpace, Char.isWhitespace, List.takeWhile_cons, List.dropWhile_cons])
  simp [parseSearchQuery, hsplit]
  decide

/-- Claim C4, as stated, is false on the code: the second branch of
`expandSynonyms` tests whether some lowercased synonym occurs in the
input, not whether the input occurs in a synonym.  For the dictionary
`{"ab": ["xyz"]}` and the input `"x"`, the claim's condition holds (the
input "x" is a substring of the synonym "xyz"), so the claim requires the
key "ab" (and "xyz") to be added; the code's expansion is just `["x"]`. -/
theorem expandSynonyms_claimC4_counterexample :
    entryCondClaimed ['x'] (['a', 'b'], [['x', 'y', 'z']]) ∧
      expandSynonyms [(['a', 'b'], [['x', 'y', 'z']])] ['x'] = [['x']] ∧
      ['a', 'b'] ∉ expandSynonyms [(['a', 'b'], [['x', 'y', 'z']])] ['x'] := by
  refine ⟨by decide, by decide, by decide⟩

/-- Claim C4 (amended): `expandSynonyms` always contains the lowercased
input term, and an element belongs to the expansion exactly when it is
the lowercased input, or it is the lowercased key or one of the
lowercased synonyms of a dictionary entry whose lowercased key is a
substring of the input or one of whose lowercased synonyms is a
substring of the input (the code tests synonym-in-input, not
input-in-synonym). -/
theorem expandSynonyms_membership_spec :
    ∀ (syns : List (Str × List Str)) (query : Str),
      lower query ∈ expandSynonyms syns query ∧
      ∀ x, (x ∈ expandSynonyms syns query ↔
        x = lower query ∨ ∃ entry ∈ syns, entryCond query entry ∧ inEntry x entry) :=
  fun _ _ => ⟨lower_mem_expandSynonyms, fun _ => mem_expandSynonyms⟩

/-- Claim C2: for a query parsed in AND mode, the original terms are the
whitespace-split tokens of the trimmed query, and a record matches
exactly when every original token has at least one of its synonym
expansions occurring as a case-insensitive substring of the record's
search text.  `andMatch` re-expands each original token with the pure
`expandSynonyms` at every candidate — the per-candidate recomputation the
claim describes for the PDF path — and is the test used by both `search`
and `searchPDFs` through `matchTerms`, whose AND-mode behaviour is the
third conjunct. -/
theorem andMatch_spec : ∀ (syns : List (Str × List Str)) (q : Str) (terms ots : List Str)
    (content : Str), parseSearchQuery syns q = ParsedQuery.and terms ots →
    ots = splitWs (trim q) ∧
    (andMatch syns content ots = true ↔
      ∀ t ∈ ots, ∃ syn ∈ expandSynonyms syns t, includes content (lower syn) = true) ∧
    matchTerms syns (ParsedQuery.and terms ots) content =
      (if andMatch syns content ots then some terms else none) := by
  intro syns q terms ots content h
  exact ⟨(parse_and_inv h).2, andMatch_iff, rfl⟩

theorem andMatch_spec_witness :
    [['a'], ['b']] = splitWs (trim ['a', ' ', 'b']) ∧
    (andMatch [] ['x', 'a', 'b'] [['a'], ['b']] = true ↔
      ∀ t ∈ [['a'], ['b']], ∃ syn ∈ expandSynonyms [] t,
        includes ['x', 'a', 'b'] (lower syn) = true) ∧
    matchTerms [] (ParsedQuery.and [['a'], ['b']] [['a'], ['b']]) ['x', 'a', 'b'] =
      (if andMatch [] ['x', 'a', 'b'] [['a'], ['b']] then some [['a'], ['b']] else none) :=
  andMatch_spec [] ['a', ' ', 'b'] [['a'], ['b']] [['a'], ['b']] ['x', 'a', 'b'] parse_ab_eval

/-- Claim C1, as stated, is false on the code: OR-mode matching uses
`group.some(...)`, not "all of its expanded terms".  With the dictionary
`{"b": ["zz"]}` the query "a OR b" parses into the groups
`[["a"], ["b", "zz"]]`; a record whose search text is "zz" matches (the
second group has the occurring term "zz"), yet no group has all of its
terms occurring ("b" does not occur), so the claim predicts no match. -/
theorem orMatch_claimC1_counterexample :
    parseSearchQuery [(['b'], [['z', 'z']])] ['a', ' ', 'O', 'R', ' ', 'b'] =
      ParsedQuery.or [[['a']], [['b'], ['z', 'z']]] [['a'], ['b']] ∧
    (matchTerms [(['b'], [['z', 'z']])]
      (ParsedQuery.or [[['a']], [['b'], ['z', 'z']]] [['a'], ['b']]) ['z', 'z']).isSome
      = true ∧
    ¬ ∃ g ∈ [[['a']], [['b'], ['z', 'z']]], ∀ t ∈ g, includes ['z', 'z'] (lower t) = true :=
  ⟨parse_aorb_eval, by decide, by decide⟩

/-- Claim C1 (amended): for every record and every OR-mode parsed query,
the record matches exactly when at least one group has at least one of
its expanded terms occurring as a case-insensitive substring of the
record's search text; the first group with an occurring term becomes the
matched-term set and group scanning stops at that group (all earlier
groups fail the test). -/
theorem orMatch_spec : ∀ (syns : List (Str × List Str)) (content : Str)
    (groups : List (List Str)) (ots : List Str),
    ((matchTerms syns (ParsedQuery.or groups ots) content).isSome = true ↔
      ∃ g ∈ groups, ∃ t ∈ g, includes content (lower t) = true) ∧
    (∀ g, matchTerms syns (ParsedQuery.or groups ots) content = some g →
      groupSat content g = true ∧
      ∃ pre post, groups = pre ++ g :: post ∧ ∀ g2 ∈ pre, groupSat content g2 = false) := by
  intro syns content groups ots
  constructor
  · exact orMatch_isSome_iff
  · intro g hg
    obtain ⟨pre, post, heq, hpre, hsat⟩ := orMatch_eq_some hg
    exact ⟨hsat, pre, post, heq, hpre⟩

theorem orMatch_spec_witness :
    groupSat ['z', 'z'] [['b'], ['z', 'z']] = true ∧
    ∃ pre post, [[['a']], [['b'], ['z', 'z']]] = pre ++ [['b'], ['z', 'z']] :: post ∧
      ∀ g2 ∈ pre, groupSat ['z', 'z'] g2 = false :=
  (orMatch_spec [] ['z', 'z'] [[['a']], [['b'], ['z', 'z']]] [['a'], ['b']]).2
    [['b'], ['z', 'z']] (by decide)

/-- Claim C9: the display-name formatter maps an id of shape
single-uppercase-letter + digits + optional dash-digits suffix through
the fixed prefix table (S → the detail-notice article label, B → the
appendix label, H → the safety-standard article label, with the suffix
appended), and returns any other id unchanged; in particular "B12"
formats to the appendix-12 label and "Z9" passes through as "Z9". -/
theorem formatPDFDisplayName_spec :
    (∀ id, parsePdfId id = none → formatPDFDisplayName id = id) ∧
    (∀ id n suf, parsePdfId id = some ('S', n, suf) →
      formatPDFDisplayName id =
        "細目告示 第".toList ++ (Nat.repr n).toList ++ "条".toList ++ suf) ∧
    (∀ id n suf, parsePdfId id = some ('B', n, suf) →
      formatPDFDisplayName id = "別添".toList ++ (Nat.repr n).toList ++ suf) ∧
    (∀ id n suf, parsePdfId id = some ('H', n, suf) →
      formatPDFDisplayName id =
        "保安基準 第".toList ++ (Nat.repr n).toList ++ "条".toList ++ suf) ∧
    (∀ id p n suf, parsePdfId id = some (p, n, suf) → p ≠ 'S' → p ≠ 'B' → p ≠ 'H' →
      formatPDFDisplayName id = id) ∧
    formatPDFDisplayName ("B12".toList) = "別添12".toList ∧
    formatPDFDisplayName ("Z9".toList) = "Z9".toList := by
  refine ⟨?_, ?_, ?_, ?_, ?_, by decide, by decide⟩
  · intro id h
    unfold formatPDFDisplayName
    rw [h]
  · intro id n suf h
    unfold formatPDFDisplayName
    rw [h]
    simp
  · intro id n suf h
    unfold formatPDFDisplayName
    rw [h]
    simp
  · intro id n suf h
    unfold formatPDFDisplayName
    rw [h]
    simp
  · intro id p n suf h hS hB hH
    unfold formatPDFDisplayName
    rw [h]
    simp [hS, hB, hH]

theorem formatPDFDisplayName_spec_witness :
    formatPDFDisplayName ("S3-2".toList) =
      "細目告示 第".toList ++ (Nat.repr 3).toList ++ "条".toList ++ "-2".toList :=
  formatPDFDisplayName_spec.2.1 ("S3-2".toList) 3 ("-2".toList) (by decide)

theorem calculateScoreStep_eq (article : Article) (b : Int) (t : Str) :
    calculateScoreStep article b t = b + claimedTermScore article t := by
  unfold calculateScoreStep claimedTermScore
  by_cases h1 : includes (lower article.title) (lower t) = true
  · by_cases h2 :
        article.articleNumber ≠ [] ∧ includes (lower article.articleNumber) (lower t) = true
    · simp only [h1, if_true, if_pos h2]
      ring
    · simp only [h1, if_true, if_neg h2]
      ring
  · by_cases h2 :
        article.articleNumber ≠ [] ∧ includes (lower article.articleNumber) (lower t) = true
    · simp only [if_neg h1, if_pos h2]
      ring
    · simp only [if_neg h1, if_neg h2]
      ring

theorem calculateScore_foldl (article : Article) :
    ∀ (l : List Str) (b : Int),
      l.foldl (calculateScoreStep article) b = b + (l.map (claimedTermScore article)).sum := by
  intro l
  induction l with
  | nil => intro b; simp
  | cons hd tl ih =>
    intro b
    simp only [List.foldl_cons, List.map_cons, List.sum_cons, ih, calculateScoreStep_eq]
    ring

/-- Claim C3, as stated, is false on the code at one corner: the source
guards the 60-point display-number bonus behind the truthiness of
`article.articleNumber`, so an article with an empty display number never
receives it, while the claim's "the term is a substring of the display
number" holds for the empty term on an empty number.  For the article
with number "", title "t", content "c", query "t" and matched-term set
`[""]`, the code scores 150 + 15·4 + 80 = 290 and the claim's formula
gives 150 + 15·4 + 80 + 60 = 350. -/
theorem calculateScore_claimC3_counterexample :
    calculateScore
        { articleNumber := [], title := ['t'], content := ['c'], paragraphs := [] }
        ['t'] [[]] = 290 ∧
      claimedScoreStated
        { articleNumber := [], title := ['t'], content := ['c'], paragraphs := [] }
        ['t'] [[]] = 350 := by
  constructor
  · simp [calculateScore, calculateScoreStep, countOcc, articleSearchText, lower]
    decide
  · simp [claimedScoreStated, claimedTermScoreStated, countOcc, articleSearchText, lower]
    decide

/-- Claim C3 (amended): for every article, query and matched-term list,
the computed score equals: 150 if the lowercased original query is a
substring of the lowercased `title + " " + content`, plus, for each
matched term, 15 times the number of case-insensitive non-overlapping
occurrences of the term in `title + " " + content`, plus 80 if the term
is a substring of the title, plus 60 if the display number is non-empty
(truthy) and the term is a substring of it. -/
theorem calculateScore_spec :
    ∀ (article : Article) (query : Str) (terms : List Str),
      calculateScore article query terms = claimedScore article query terms := by
  intro article query terms
  unfold calculateScore claimedScore
  rw [calculateScore_foldl article terms]

theorem pdfPreviewLoop_no_qual {content : Str} {d : Str} :
    ∀ (ts : List Str), (∀ t ∈ ts, previewQualB content t = false) →
      pdfPreviewLoop content ts d = d := by
  intro ts
  induction ts with
  | nil => intro _; rfl
  | cons hd tl ih =>
    intro h
    have hhd : previewQualB content hd = false := h hd (List.mem_cons_self _ _)
    unfold pdfPreviewLoop
    unfold previewQualB at hhd
    revert hhd
    cases hidx : indexOfSub (lower hd) (lower content) with
    | none =>
      intro _
      exact ih (fun t ht => h t (List.mem_cons_of_mem _ ht))
    | some i =>
      intro hhd
      have hge : ¬ i < 500 := by simpa using hhd
      dsimp only
      rw [if_neg hge]
      exact ih (fun t ht => h t (List.mem_cons_of_mem _ ht))

/-- Claim C8: for every matched PDF record, the preview is the first 200
characters of content unless some matched term's first occurrence in the
content lies before index 500, in which case the preview is the content
slice from `index - 50` (clipped at 0) to `min(length, index + 150)`
wrapped in ellipsis markers, where the term used is the first qualifying
one in matched-term list order. -/
theorem pdfPreview_spec : ∀ (content : Str) (ts : List Str),
    ((∀ t ∈ ts, previewQualB content t = false) →
      pdfPreview content ts = content.take 200) ∧
    (∀ pre t post i, ts = pre ++ t :: post →
      (∀ u ∈ pre, previewQualB content u = false) →
      indexOfSub (lower t) (lower content) = some i → i < 500 →
      pdfPreview content ts =
        "...".toList ++ substringJS content (i - 50) (min content.length (i + 150)) ++
          "...".toList) := by
  intro content ts
  constructor
  · intro h
    exact pdfPreviewLoop_no_qual ts h
  · intro pre t post i heq hpre hidx hlt
    subst heq
    unfold pdfPreview
    induction pre with
    | nil =>
      simp only [List.nil_append]
      unfold pdfPreviewLoop
      rw [hidx]
      dsimp only
      rw [if_pos hlt]
    | cons phd ptl ih =>
      have hphd : previewQualB content phd = false := hpre phd (List.mem_cons_self _ _)
      simp only [List.cons_append]
      unfold pdfPreviewLoop
      unfold previewQualB at hphd
      revert hphd
      cases hidx2 : indexOfSub (lower phd) (lower content) with
      | none =>
        intro _
        exact ih (fun u hu => hpre u (List.mem_cons_of_mem _ hu))
      | some j =>
        intro hphd
        have hge : ¬ j < 500 := by simpa using hphd
        dsimp only
        rw [if_neg hge]
        exact ih (fun u hu => hpre u (List.mem_cons_of_mem _ hu))

theorem pdfPreview_spec_witness :
    pdfPreview ['a', 'b', 'c'] [['x'], ['c']] =
      "...".toList ++ substringJS ['a', 'b', 'c'] (2 - 50) (min 3 (2 + 150)) ++ "...".toList :=
  (pdfPreview_spec ['a', 'b', 'c'] [['x'], ['c']]).2 [['x']] ['c'] [] 2 rfl (by decide)
    (by decide) (by decide)

theorem search_not_ready {e : SearchEngine} (h : e.isReady = false) (q : Str) (f : Filters) :
    search e q f = { articles := [], pdfs := [] } := by
  unfold search
  rw [if_pos (Or.inl h)]

/-- Claim C5, as stated, is false on the code in its atomicity part: the
source assigns `this.laws` before parsing the synonyms document, so when
the laws parse succeeds and the synonyms parse fails the engine state has
already committed the new laws.  Loading the initial engine with a
one-law laws document and a failing synonyms parse returns `false` but
leaves a changed state. -/
theorem loadData_claimC5_counterexample :
    (loadData initEngine
        (some [{ lawId := ['l'], lawName := [], lawType := [], articles := [] }])
        none none none).2 = false ∧
    (loadData initEngine
        (some [{ lawId := ['l'], lawName := [], lawType := [], articles := [] }])
        none none none).1.laws =
      [{ lawId := ['l'], lawName := [], lawType := [], articles := [] }] ∧
    (loadData initEngine
        (some [{ lawId := ['l'], lawName := [], lawType := [], articles := [] }])
        none none none).1 ≠ initEngine := by
  refine ⟨by decide, by decide, by decide⟩

/-- Claim C5 (amended): if any of the four parses fails during loadData,
the failure is reported to the caller as the boolean false, the ready
flag is left untouched (so it stays false if it was false), and every
subsequent search on a not-ready engine returns empty result sets;
however, fields assigned before the failing parse (the laws, synonyms
and PDF metadata assignments happen in order) remain committed, so the
corpus state is not atomically unchanged — the partial state is merely
unobservable through `search` while the ready flag is false. -/
theorem loadData_failure_spec : ∀ (e : SearchEngine) (lawsR : Option (List Law))
    (synonymsR : Option (List (Str × List Str))) (pdfMetadataR : Option PdfMetadata)
    (pdfContentR : Option PdfContentRaw),
    lawsR = none ∨ synonymsR = none ∨ pdfMetadataR = none ∨ pdfContentR = none →
    (loadData e lawsR synonymsR pdfMetadataR pdfContentR).2 = false ∧
    (loadData e lawsR synonymsR pdfMetadataR pdfContentR).1.isReady = e.isReady ∧
    (e.isReady = false → ∀ q f,
      search (loadData e lawsR synonymsR pdfMetadataR pdfContentR).1 q f =
        { articles := [], pdfs := [] }) := by
  intro e lawsR synonymsR pdfMetadataR pdfContentR h
  have main : (loadData e lawsR synonymsR pdfMetadataR pdfContentR).2 = false ∧
      (loadData e lawsR synonymsR pdfMetadataR pdfContentR).1.isReady = e.isReady := by
    cases lawsR with
    | none => simp [loadData]
    | some laws =>
      cases synonymsR with
      | none => simp [loadData]
      | some syns =>
        cases pdfMetadataR with
        | none => simp [loadData]
        | some meta =>
          cases pdfContentR with
          | none => simp [loadData]
          | some cont => simp at h
  refine ⟨main.1, main.2, ?_⟩
  intro hready q f
  exact search_not_ready (main.2.trans hready) q f

theorem loadData_failure_spec_witness :
    (loadData initEngine (some []) none none none).2 = false ∧
    search (loadData initEngine (some []) none none none).1 ['a']
        { law := true, ordinance := true, details := true, appendices := true } =
      { articles := [], pdfs := [] } :=
  ⟨(loadData_failure_spec initEngine (some []) none none none (Or.inr (Or.inl rfl))).1,
   (loadData_failure_spec initEngine (some []) none none none (Or.inr (Or.inl rfl))).2.2
     rfl ['a'] { law := true, ordinance := true, details := true, appendices := true }⟩

theorem sortLenDesc_sorted (terms : List Str) :
    List.Sorted lenDescRel (sortLenDesc terms) :=
  List.sorted_insertionSort lenDescRel terms

theorem sortLenDesc_of_sorted {l : List Str} (h : List.Sorted lenDescRel l) :
    sortLenDesc l = l :=
  List.Sorted.insertionSort_eq h

theorem highlightTermsAfter_of_sorted (text : Str) {l : List Str}
    (h : List.Sorted lenDescRel l) : highlightTermsAfter text l = l := by
  unfold highlightTermsAfter
  by_cases hg : text = [] ∨ l = []
  · rw [if_pos hg]
  · rw [if_neg hg]
    exact sortLenDesc_of_sorted h

theorem articleTermsEffect_of_sorted (article : Article) {l : List Str}
    (h : List.Sorted lenDescRel l) : articleTermsEffect article l = l := by
  unfold articleTermsEffect
  rw [highlightTermsAfter_of_sorted article.title h,
    highlightTermsAfter_of_sorted (articleResultText article) h]

theorem andArticleLoopTerms_of_sorted (syns : List (Str × List Str)) (ots : List Str)
    {l : List Str} (h : List.Sorted lenDescRel l) :
    ∀ articles : List Article, andArticleLoopTerms syns ots articles l = l := by
  intro articles
  unfold andArticleLoopTerms
  induction articles with
  | nil => rfl
  | cons hd tl ih =>
    simp only [List.foldl_cons]
    by_cases hm : andMatch syns (articleSearchText hd) ots = true
    · rw [if_pos hm, articleTermsEffect_of_sorted hd h]
      exact ih
    · rw [if_neg hm]
      exact ih

/-- Claim C10, as stated ("every call to highlightText reorders the
caller's terms array into non-increasing length order"), is false on the
code: when the text is empty (falsy) the function returns before the
in-place sort runs, so the caller's array keeps its original order, which
need not be length-descending. -/
theorem highlightTermsAfter_claimC10_counterexample :
    highlightTermsAfter [] [['a'], ['b', 'b']] = [['a'], ['b', 'b']] ∧
    sortLenDesc [['a'], ['b', 'b']] = [['b', 'b'], ['a']] ∧
    ¬ List.Sorted lenDescRel [['a'], ['b', 'b']] := by
  refine ⟨by decide, by decide, by decide⟩

/-- Claim C10 (amended): every call to highlightText with non-empty text
and a non-empty term list reorders the caller's terms array in place into
non-increasing length order (a stable permutation, not applied to a
copy); since the reordered state is a fixed point of every later
highlight call, once an AND-mode matched article has been highlighted
the shared `parsedQuery.terms` array stays in the length-descending
order, which is the order all later candidate records' highlighting and
the PDF preview term-scan observe. -/
theorem highlightTermsAfter_spec : ∀ (text : Str) (terms : List Str),
    text ≠ [] → terms ≠ [] →
    highlightTermsAfter text terms = sortLenDesc terms ∧
    List.Sorted lenDescRel (sortLenDesc terms) ∧
    List.Perm (sortLenDesc terms) terms ∧
    (∀ article : Article,
      articleTermsEffect article (sortLenDesc terms) = sortLenDesc terms) ∧
    (∀ (syns : List (Str × List Str)) (ots : List Str) (articles : List Article),
      andArticleLoopTerms syns ots articles (sortLenDesc terms) = sortLenDesc terms) := by
  intro text terms htext hterms
  have hsorted := sortLenDesc_sorted terms
  refine ⟨?_, hsorted, List.perm_insertionSort lenDescRel terms, ?_, ?_⟩
  · unfold highlightTermsAfter
    rw [if_neg (by simp [htext, hterms])]
  · intro article
    exact articleTermsEffect_of_sorted article hsorted
  · intro syns ots articles
    exact andArticleLoopTerms_of_sorted syns ots hsorted articles

theorem highlightTermsAfter_spec_witness :
    highlightTermsAfter ['x'] [['a'], ['b', 'b']] = sortLenDesc [['a'], ['b', 'b']] ∧
    articleTermsEffect
        { articleNumber := [], title := ['t'], content := ['c'], paragraphs := [] }
        (sortLenDesc [['a'], ['b', 'b']]) = sortLenDesc [['a'], ['b', 'b']] :=
  ⟨(highlightTermsAfter_spec ['x'] [['a'], ['b', 'b']] (by decide) (by decide)).1,
   (highlightTermsAfter_spec ['x'] [['a'], ['b', 'b']] (by decide) (by decide)).2.2.2.1
     { articleNumber := [], title := ['t'], content := ['c'], paragraphs := [] }⟩

theorem claimedTermScore_nonneg (article : Article) (t : Str) :
    0 ≤ claimedTermScore article t := by
  unfold claimedTermScore
  split_ifs <;> omega

theorem calculateScore_nonneg (article : Article) (query : Str) (terms : List Str) :
    0 ≤ calculateScore article query terms := by
  unfold calculateScore
  rw [calculateScore_foldl]
  have hbase : (0 : Int) ≤ if includes (articleSearchText article) (lower query) then 150 else 0 := by
    split_ifs <;> omega
  have hsum : (0 : Int) ≤ (terms.map (claimedTermScore article)).sum := by
    apply List.sum_nonneg
    intro x hx
    obtain ⟨t, _, rfl⟩ := List.mem_map.mp hx
    exact claimedTermScore_nonneg article t
  exact add_nonneg hbase hsum

theorem pdfScoreStep_nonneg (pdf : PdfDoc) (b : Int) (t : Str) (hb : 0 ≤ b) :
    0 ≤ pdfScoreStep pdf b t := by
  unfold pdfScoreStep
  by_cases hinc : includes (pdfSearchText pdf) (lower t) = true
  · rw [if_pos hinc]
    cases pdf.keywords with
    | none =>
      dsimp only
      split_ifs <;> omega
    | some kws =>
      dsimp only
      split_ifs <;> omega
  · rw [if_neg hinc]
    exact hb

theorem pdfScore_nonneg (pdf : PdfDoc) (matchedTerms : List Str) :
    0 ≤ pdfScore pdf matchedTerms := by
  unfold pdfScore
  suffices h : ∀ (l : List Str) (b : Int), 0 ≤ b → 0 ≤ l.foldl (pdfScoreStep pdf) b by
    exact h matchedTerms 0 le_rfl
  intro l
  induction l with
  | nil => intro b hb; exact hb
  | cons hd tl ih =>
    intro b hb
    simp only [List.foldl_cons]
    exact ih _ (pdfScoreStep_nonneg pdf b hd hb)

theorem matched_term_occurs {syns : List (Str × List Str)} {q0 : Str} {content : Str}
    {mts : List Str}
    (h : matchTerms syns (parseSearchQuery syns q0) content = some mts) :
    ∃ t ∈ termsOf (parseSearchQuery syns q0), 1 ≤ countOcc (lower t) content := by
  cases hpq : parseSearchQuery syns q0 with
  | or groups ots =>
    rw [hpq] at h
    have h2 : orMatch content groups = some mts := h
    obtain ⟨pre, post, heq, hpre, hsat⟩ := orMatch_eq_some h2
    obtain ⟨t, htg, hinc⟩ := groupSat_iff.mp hsat
    refine ⟨t, ?_, countOcc_pos (includes_iff.mp hinc)⟩
    unfold termsOf
    rw [heq]
    exact List.mem_flatten.mpr ⟨mts, by simp, htg⟩
  | and terms ots =>
    rw [hpq] at h
    dsimp only [matchTerms] at h
    by_cases ham : andMatch syns content ots = true
    · rw [if_pos ham] at h
      injection h with hmts
      have hots : ots = splitWs (trim q0) := (parse_and_inv hpq).2
      have hne : ots ≠ [] := by rw [hots]; exact splitWs_ne_nil _
      obtain ⟨t0, hts⟩ : ∃ t0, t0 ∈ ots := by
        cases ots with
        | nil => exact absurd rfl hne
        | cons a b => exact ⟨a, List.mem_cons_self _ _⟩
      obtain ⟨syn, hsynmem, hsyninc⟩ := (andMatch_iff.mp ham) t0 hts
      refine ⟨syn, ?_, countOcc_pos (includes_iff.mp hsyninc)⟩
      unfold termsOf
      rw [(parse_and_inv hpq).1]
      apply mem_foldl_addTerm.mpr
      refine Or.inr (List.mem_flatMap.mpr ⟨t0, ?_, hsynmem⟩)
      rw [← hots]
      exact hts
    · rw [if_neg ham] at h
      exact absurd h (by simp)

theorem mem_processLaw {syns : List (Str × List Str)} {f : Filters} {q : Str}
    {pq : ParsedQuery} {law : Law} {r : ArticleResult}
    (h : r ∈ processLaw syns f q pq law) :
    ∃ article ∈ law.articles, ∃ mts,
      matchTerms syns pq (articleSearchText article) = some mts ∧
      r = mkArticleResult law article q mts := by
  unfold processLaw at h
  split_ifs at h with h1 h2
  · simp at h
  · simp at h
  · obtain ⟨article, ha, hm⟩ := List.mem_filterMap.mp h
    obtain ⟨mts, hmt, hr⟩ := Option.map_eq_some'.mp hm
    exact ⟨article, ha, mts, hmt, hr.symm⟩

theorem mem_searchPDFCategory {e : SearchEngine} {pq : ParsedQuery}
    {catData : List PdfDoc} {ct cl : Str} {r : PdfResult}
    (h : r ∈ searchPDFCategory e pq catData ct cl) :
    ∃ pdf ∈ catData, ∃ mts,
      matchTerms e.synonyms pq (pdfSearchText pdf) = some mts ∧
      r = mkPdfResult e.pdfMetadata ct cl pdf mts := by
  unfold searchPDFCategory at h
  obtain ⟨pdf, hp, hm⟩ := List.mem_filterMap.mp h
  obtain ⟨mts, hmt, hr⟩ := Option.map_eq_some'.mp hm
  exact ⟨pdf, hp, mts, hmt, hr.symm⟩

theorem mem_searchPDFs {e : SearchEngine} {pq : ParsedQuery} {r : PdfResult}
    (h : r ∈ searchPDFs e pq) :
    ∃ pdf mts, matchTerms e.synonyms pq (pdfSearchText pdf) = some mts ∧
      ∃ ct cl, r = mkPdfResult e.pdfMetadata ct cl pdf mts := by
  unfold searchPDFs at h
  rw [List.mem_insertionSort] at h
  rcases List.mem_append.mp h with h123 | h4
  · rcases List.mem_append.mp h123 with h12 | h3
    · rcases List.mem_append.mp h12 with h1 | h2
      · obtain ⟨pdf, _, mts, hmt, hr⟩ := mem_searchPDFCategory h1
        exact ⟨pdf, mts, hmt, _, _, hr⟩
      · obtain ⟨pdf, _, mts, hmt, hr⟩ := mem_searchPDFCategory h2
        exact ⟨pdf, mts, hmt, _, _, hr⟩
    · obtain ⟨pdf, _, mts, hmt, hr⟩ := mem_searchPDFCategory h3
      exact ⟨pdf, mts, hmt, _, _, hr⟩
  · obtain ⟨pdf, _, mts, hmt, hr⟩ := mem_searchPDFCategory h4
    exact ⟨pdf, mts, hmt, _, _, hr⟩

/-- Claim C7: for every search call, every returned article and PDF
result has a non-negative integer score, every returned result's record
has at least one occurrence of some query-derived term in its search
text (so a record with zero matched occurrences never appears), and both
result lists are sorted non-increasing by score. -/
theorem search_results_spec : ∀ (e : SearchEngine) (q : Str) (f : Filters),
    ((search e q f).articles.all (fun r => decide (0 ≤ r.score) &&
        (termsOf (parseSearchQuery e.synonyms (trim q))).any
          (fun t => decide (1 ≤ countOcc (lower t) (lower (r.title ++ [' '] ++ r.content)))))
      = true) ∧
    ((search e q f).pdfs.all (fun r => decide (0 ≤ r.score) &&
        (termsOf (parseSearchQuery e.synonyms (trim q))).any
          (fun t => decide (1 ≤ countOcc (lower t)
            (lower (r.title ++ [' '] ++ r.fullContent ++ [' '] ++ joinSpace r.keywords)))))
      = true) ∧
    List.Sorted scoreRelA (search e q f).articles ∧
    List.Sorted scoreRelP (search e q f).pdfs := by
  intro e q f
  by_cases hg : e.isReady = false ∨ trim q = []
  · have hs : search e q f = { articles := [], pdfs := [] } := by
      unfold search
      rw [if_pos hg]
    rw [hs]
    refine ⟨by simp, by simp, List.sorted_nil, List.sorted_nil⟩
  · have hs : search e q f =
        { articles := List.insertionSort scoreRelA
            (e.laws.flatMap (processLaw e.synonyms f q (parseSearchQuery e.synonyms (trim q))))
          pdfs := searchPDFs e (parseSearchQuery e.synonyms (trim q)) } := by
      unfold search
      rw [if_neg hg]
    rw [hs]
    dsimp only
    refine ⟨?_, ?_, List.sorted_insertionSort scoreRelA _, ?_⟩
    · rw [List.all_eq_true]
      intro r hr
      rw [List.mem_insertionSort] at hr
      obtain ⟨law, hlaw, hrl⟩ := List.mem_flatMap.mp hr
      obtain ⟨article, ha, mts, hmt, rfl⟩ := mem_processLaw hrl
      rw [Bool.and_eq_true]
      constructor
      · rw [decide_eq_true_eq]
        exact calculateScore_nonneg article q mts
      · rw [List.any_eq_true]
        obtain ⟨t, ht, hocc⟩ := matched_term_occurs hmt
        refine ⟨t, ht, ?_⟩
        rw [decide_eq_true_eq]
        exact hocc
    · rw [List.all_eq_true]
      intro r hr
      obtain ⟨pdf, mts, hmt, ct, cl, rfl⟩ := mem_searchPDFs hr
      rw [Bool.and_eq_true]
      constructor
      · rw [decide_eq_true_eq]
        exact pdfScore_nonneg pdf mts
      · rw [List.any_eq_true]
        obtain ⟨t, ht, hocc⟩ := matched_term_occurs hmt
        refine ⟨t, ht, ?_⟩
        rw [decide_eq_true_eq]
        exact hocc
    · unfold searchPDFs
      exact List.sorted_insertionSort scoreRelP _

theorem mfst_mark (s : Str) (b : Bool) : mfst (mark s b) = s := by
  induction s with
  | nil => rfl
  | cons c cs ih =>
    simp only [mark, mfst, List.map_cons] at ih ⊢
    rw [ih]

theorem mstrip_mark_true (s : Str) : mstrip (mark s true) = [] := by
  induction s with
  | nil => rfl
  | cons c cs ih =>
    simp only [mark, mstrip, List.map_cons, List.filter_cons] at ih ⊢
    simp only [Bool.not_true, Bool.false_eq_true, if_false]
    exact ih

theorem mstrip_mark_false (s : Str) : mstrip (mark s false) = s := by
  induction s with
  | nil => rfl
  | cons c cs ih =>
    simp only [mark, mstrip, List.map_cons, List.filter_cons] at ih ⊢
    simpa using ih

theorem mfst_append (a b : List (Char × Bool)) : mfst (a ++ b) = mfst a ++ mfst b := by
  simp [mfst]

theorem mfst_cons (c : Char × Bool) (l : List (Char × Bool)) :
    mfst (c :: l) = c.1 :: mfst l := rfl

theorem mstrip_append (a b : List (Char × Bool)) :
    mstrip (a ++ b) = mstrip a ++ mstrip b := by
  simp [mstrip]

theorem mfst_replaceWrapM (term : Str) (s : List (Char × Bool)) :
    mfst (replaceWrapM term s) = replaceWrap term (mfst s) := by
  induction s using replaceWrapM.induct term with
  | case1 s hterm =>
    rw [replaceWrapM.eq_def, replaceWrap.eq_def]
    simp [hterm]
  | case2 hterm =>
    rw [replaceWrapM.eq_def, replaceWrap.eq_def]
    simp [hterm, mfst]
  | case3 hterm c rest hsw ih =>
    have hfst : mfst (c :: rest) = c.1 :: mfst rest := rfl
    have hsw2 : startsWithCI term (c.1 :: mfst rest) = true := hfst ▸ hsw
    have htake : mfst ((c :: rest).take term.length) =
        (c.1 :: mfst rest).take term.length := by
      rw [← hfst]
      simp [mfst, List.map_take]
    have hdrop : mfst ((c :: rest).drop term.length) =
        (c.1 :: mfst rest).drop term.length := by
      rw [← hfst]
      simp [mfst, List.map_drop]
    rw [replaceWrapM.eq_def]
    rw [dif_neg hterm]
    dsimp only
    rw [if_pos hsw]
    rw [hfst, replaceWrap.eq_def]
    rw [dif_neg hterm]
    dsimp only
    rw [if_pos hsw2]
    rw [mfst_append, mfst_append, mfst_append, mfst_mark, mfst_mark, ih, htake, hdrop]
  | case4 hterm c rest hsw ih =>
    have hfst : mfst (c :: rest) = c.1 :: mfst rest := rfl
    have hsw2 : ¬ startsWithCI term (c.1 :: mfst rest) = true := by
      intro hc
      exact hsw (by rw [hfst]; exact hc)
    rw [replaceWrapM.eq_def]
    rw [dif_neg hterm]
    dsimp only
    rw [if_neg hsw]
    rw [hfst, replaceWrap.eq_def]
    rw [dif_neg hterm]
    dsimp only
    rw [if_neg hsw2]
    rw [mfst_cons, ih]

theorem mstrip_replaceWrapM (term : Str) (s : List (Char × Bool)) :
    mstrip (replaceWrapM term s) = mstrip s := by
  induction s using replaceWrapM.induct term with
  | case1 s hterm =>
    rw [replaceWrapM.eq_def]
    simp [hterm]
  | case2 hterm =>
    rw [replaceWrapM.eq_def]
    simp [hterm]
  | case3 hterm c rest hsw ih =>
    rw [replaceWrapM.eq_def]
    rw [dif_neg hterm]
    dsimp only
    rw [if_pos hsw]
    rw [mstrip_append, mstrip_append, mstrip_append, mstrip_mark_true, mstrip_mark_true, ih]
    conv_rhs => rw [← List.take_append_drop term.length (c :: rest)]
    rw [mstrip_append]
    simp
  | case4 hterm c rest hsw ih =>
    rw [replaceWrapM.eq_def]
    rw [dif_neg hterm]
    dsimp only
    rw [if_neg hsw]
    show mstrip ([c] ++ replaceWrapM term rest) = mstrip ([c] ++ rest)
    rw [mstrip_append, mstrip_append, ih]

theorem mfst_highlight_foldl (terms : List Str) :
    ∀ (s : List (Char × Bool)),
      mfst (terms.foldl
        (fun result term => if term.length < 2 then result else replaceWrapM term result) s) =
      terms.foldl
        (fun result term => if term.length < 2 then result else replaceWrap term result)
        (mfst s) := by
  induction terms with
  | nil => intro s; rfl
  | cons hd tl ih =>
    intro s
    simp only [List.foldl_cons]
    by_cases hlen : hd.length < 2
    · rw [if_pos hlen, if_pos hlen]
      exact ih s
    · rw [if_neg hlen, if_neg hlen]
      rw [ih (replaceWrapM hd s), mfst_replaceWrapM]

theorem mstrip_highlight_foldl (terms : List Str) :
    ∀ (s : List (Char × Bool)),
      mstrip (terms.foldl
        (fun result term => if term.length < 2 then result else replaceWrapM term result) s) =
      mstrip s := by
  induction terms with
  | nil => intro s; rfl
  | cons hd tl ih =>
    intro s
    simp only [List.foldl_cons]
    by_cases hlen : hd.length < 2
    · rw [if_pos hlen]
      exact ih s
    · rw [if_neg hlen]
      rw [ih (replaceWrapM hd s), mstrip_replaceWrapM]

/-- Claim C6: for every text and every non-empty term list, the output of
`highlightText`, with all inserted markup stripped, equals the input text
exactly.  `highlightTextM` is the same computation instrumented with an
inserted-flag per character: its character content (`mfst`) is exactly
the `highlightText` output, and removing exactly the inserted markup
characters (`mstrip`) recovers the input text. -/
theorem highlightText_strip_roundtrip : ∀ (text : Str) (terms : List Str), terms ≠ [] →
    mfst (highlightTextM text terms) = highlightText text terms ∧
    mstrip (highlightTextM text terms) = text := by
  intro text terms hterms
  unfold highlightTextM highlightText
  by_cases hg : text = [] ∨ terms = []
  · rw [if_pos hg, if_pos hg]
    exact ⟨mfst_mark text false, mstrip_mark_false text⟩
  · rw [if_neg hg, if_neg hg]
    constructor
    · rw [mfst_highlight_foldl, mfst_mark]
    · rw [mstrip_highlight_foldl, mstrip_mark_false]

theorem highlightText_strip_roundtrip_witness :
    mfst (highlightTextM ['a', 'b'] [['a', 'b']]) = highlightText ['a', 'b'] [['a', 'b']] ∧
    mstrip (highlightTextM ['a', 'b'] [['a', 'b']]) = ['a', 'b'] :=
  highlightText_strip_roundtrip ['a', 'b'] [['a', 'b']] (by decide)
